import Mathlib

/-!
Shallow embedding of the topology-aware gang scheduler
(gpudirect-tcpxo/topology-scheduler/schedule-daemon.py) and proofs about it.

Python dictionaries keyed by strings are modelled as association lists
(first-match lookup); Kubernetes resource quantities are modelled as the
already-parsed exact rationals that parse_quantity returns (quantity-string
parsing itself is out of scope); GPU counts are integers, as in the source.
-/

namespace ScheduleDaemon

/-- A pod scheduling gate (an object with a name attribute). -/
structure SchedulingGate where
  name : String
deriving DecidableEq, Inhabited, Repr

/-- A node taint (spec.taints entries), with its key and value. -/
structure ApiTaint where
  key : String
  value : String
deriving DecidableEq, Inhabited, Repr

/-- A pod toleration (spec.tolerations entries). -/
structure ApiToleration where
  key : String
  operator : String
  value : String
deriving DecidableEq, Inhabited, Repr

/-- A node status condition (status.conditions entries); ctype models the
condition.type attribute. -/
structure ApiCondition where
  ctype : String
  status : String
deriving DecidableEq, Inhabited, Repr

/-- A container's resources.requests dictionary: the three keys the daemon
reads ('cpu', 'memory', 'nvidia.com/gpu'), each possibly absent. -/
structure ApiRequests where
  cpu : Option ℚ
  memory : Option ℚ
  gpu : Option ℤ
deriving DecidableEq, Inhabited, Repr

/-- A container: only container.resources.requests is consumed (None models
a missing requests dict, read through the source's `requests or \x7b\x7d`). -/
structure ApiContainer where
  requests : Option ApiRequests
deriving DecidableEq, Inhabited, Repr

/-- A container status: terminated is true when state.terminated is not None. -/
structure ApiContainerStatus where
  terminated : Bool
deriving DecidableEq, Inhabited, Repr

/-- A pod status: container_statuses may be None. -/
structure ApiPodStatus where
  container_statuses : Option (List ApiContainerStatus)
deriving DecidableEq, Inhabited, Repr

/-- The slice of a Kubernetes pod object consumed by resource accounting in
find_schedulable_nodes: spec.node_name, spec.containers, and status. -/
structure ApiPod where
  node_name : Option String
  containers : List ApiContainer
  status : Option ApiPodStatus
deriving DecidableEq, Inhabited, Repr

/-- The slice of a Kubernetes node object consumed by find_schedulable_nodes:
metadata.name, metadata.labels, spec.taints, status.conditions and
status.allocatable (its 'cpu' and 'memory' entries are assumed present, as the
source indexes them unguarded; 'nvidia.com/gpu' is read with default 0). -/
structure ApiNode where
  name : String
  labels : List (String × String)
  taints : Option (List ApiTaint)
  conditions : List ApiCondition
  alloc_cpu : ℚ
  alloc_memory : ℚ
  alloc_gpu : Option ℤ
deriving DecidableEq, Inhabited, Repr

/-- The node_info dictionary built by find_schedulable_nodes (lines 187-193):
name, free cpu/memory/gpu and the node's full label map. -/
structure NodeRec where
  name : String
  cpu : ℚ
  memory : ℚ
  gpu : ℤ
  node_labels : List (String × String)
deriving DecidableEq, Inhabited, Repr

/-- The pod dictionary built by find_schedulable_pods (lines 265-277), keeping
the fields the scheduling core consumes.  index and job_name are the two label
values (None when the label is missing); tolerations models the
pod['spec'].tolerations attribute read by get_pods_taint_toleration (None when
the pod declares no tolerations); creation timestamps are modelled as naturals
(pods lacking one are out of scope of the ordering claims). -/
structure PodRec where
  name : String
  index : Option String
  cpu : ℚ
  memory : ℚ
  gpu : ℤ
  node_selector : Option (List (String × String))
  job_name : Option String
  creation_time : ℕ
  tolerations : Option (List ApiToleration)
deriving DecidableEq, Inhabited, Repr

/-! ## split_pods_based_on_jobs (lines 26-31)

itertools.groupby groups *consecutive* elements with equal keys, so the split
below collects maximal runs of pods whose job_name agrees. -/

/-- Lines 26-31: splits pending pods into groups based on jobs.  Faithful to
itertools.groupby: a new group starts whenever the job_name key differs from
the previous pod's. -/
def split_pods_based_on_jobs : List PodRec → List (List PodRec)
  | [] => []
  | p :: ps =>
    match split_pods_based_on_jobs ps with
    | [] => [[p]]
    | [] :: gs => [p] :: gs
    | (q :: g) :: gs =>
      if p.job_name == q.job_name then (p :: q :: g) :: gs
      else [p] :: (q :: g) :: gs

/-- Lines 34-37: sorting key for jobs, the creation time of the job's first
pod (the source indexes job[0]; groups produced by the splitter are
non-empty, so the headD default is never consulted on reachable inputs). -/
def sort_jobs_by_time (job : List PodRec) : ℕ :=
  (job.headD default).creation_time

/-- Stable ordered insertion used to model Python's stable sorted(...): the
inserted job goes before the first resident job with a strictly larger key,
and after residents with an equal key, exactly as a stable sort places an
element that preceded them. -/
def insert_job (job : List PodRec) : List (List PodRec) → List (List PodRec)
  | [] => [job]
  | j :: js =>
    if sort_jobs_by_time job ≤ sort_jobs_by_time j then job :: j :: js
    else j :: insert_job job js

/-- Line 378: sorted(jobs, key=sort_jobs_by_time), modelled as a stable
insertion sort (Python's sort is stable, and stable sorts agree pointwise). -/
def sorted_jobs : List (List PodRec) → List (List PodRec)
  | [] => []
  | j :: js => insert_job j (sorted_jobs js)

/-- Lines 377-378: the order in which schedule_pod_with_gate processes the
job groups of one tick. -/
def scheduled_job_order (pods : List PodRec) : List (List PodRec) :=
  sorted_jobs (split_pods_based_on_jobs pods)

/-! ## pod_sorting_key (lines 40-60) -/

/-- The numeric value of a digit string, as Python's int() computes it on the
all-digit suffix. -/
def digits_val (s : List Char) : ℤ :=
  s.foldl (fun acc c => 10 * acc + (c.toNat - 48 : ℤ)) 0

/-- The trailing-digit scan of pod_sorting_key (lines 51-55), over the
reversed name.  Each loop iteration of the source inspects
name[-1 - len(suffix)]; when the scan has consumed every character the next
inspection indexes before the start of the string and Python raises
IndexError, modelled by none. -/
def suffix_scan : List Char → Option (List Char)
  | [] => none
  | c :: rest => if c.isDigit then (suffix_scan rest).map (· ++ [c]) else some []

/-- Lines 40-60: sorting key for pods.  Returns Sum.inl int(pod['index']) when
the index label is present (none if int() fails to parse), otherwise the
(name-without-suffix, suffix-number) pair; none models the IndexError raised
when the name consists entirely of digits. -/
def pod_sorting_key (pod : PodRec) : Option (ℤ ⊕ (String × ℤ)) :=
  match pod.index with
  | some s => s.toInt?.map Sum.inl
  | none =>
    (suffix_scan pod.name.data.reverse).map fun suffix =>
      let idx : ℤ := if suffix ≠ [] then digits_val suffix else 0
      Sum.inr (⟨pod.name.data.take (pod.name.length - suffix.length)⟩, idx)

/-! ## node_topology_key / node_topology_distance (lines 63-91) -/

/-- Lines 74-91: the 4-tuple topology key of a node, or the empty tuple when
any of the four labels is missing.  Tuples are modelled as lists. -/
def node_topology_key (node : NodeRec) : List String :=
  match node.node_labels.lookup "cloud.google.com/gke-placement-group",
        node.node_labels.lookup "topology.gke.io/cluster",
        node.node_labels.lookup "topology.gke.io/rack",
        node.node_labels.lookup "topology.gke.io/host" with
  | some pg, some cluster, some rack, some host => [pg, cluster, rack, host]
  | _, _, _, _ => []

/-- The loop of node_topology_distance (lines 67-71): walk the first key,
return the current result at the first mismatch, divide it by 100 after each
match, 0 when the first key is exhausted.  (When the first key is longer than
the second the source raises IndexError; topology keys always have length 0
or 4, so that branch is unreachable and is modelled by returning result.) -/
def dist_go : List String → List String → ℕ → ℕ
  | [], _, _ => 0
  | _ :: _, [], result => result
  | a :: k1, b :: k2, result => if a ≠ b then result else dist_go k1 k2 (result / 100)

/-- Lines 63-71: distance between two nodes' topology keys, starting from
1000000.  The Python float divisions only ever produce the integers 1000000,
10000, 100, 1 on 4-tuple keys, so natural-number division is exact here. -/
def node_topology_distance (node1 node2 : NodeRec) : ℕ :=
  dist_go (node_topology_key node1) (node_topology_key node2) 1000000

/-- The index of the first differing coordinate of two equal-length keys
(the length of their longest common prefix); used to state the distance law. -/
def first_diff : List String → List String → ℕ
  | a :: k1, b :: k2 => if a = b then first_diff k1 k2 + 1 else 0
  | _, _ => 0

/-! ## can_schedule (lines 288-302) -/

/-- The node-selector loop of can_schedule (lines 293-296): every key/value
pair of the selector must appear in the node's labels. -/
def selector_ok (node_labels : List (String × String)) : List (String × String) → Bool
  | [] => true
  | (key, value) :: rest =>
    match node_labels.lookup key with
    | none => false
    | some v => if v ≠ value then false else selector_ok node_labels rest

/-- Lines 288-302: checks if a given pod can be scheduled on a given node.
A None node_selector skips the selector loop (`if node_selector:`); an empty
selector dict iterates vacuously, which coincides with skipping. -/
def can_schedule (node : NodeRec) (pod : PodRec) : Bool :=
  (match pod.node_selector with
   | none => true
   | some sel => selector_ok node.node_labels sel) &&
  (decide (node.cpu ≥ pod.cpu) && decide (node.memory ≥ pod.memory) &&
   decide (node.gpu ≥ pod.gpu))

/-! ## calculate_pods_assignment (lines 338-369)

The Python assignment list holds (possibly negative) integers; aget models
reading assignment[i].  The two nested while loops are modelled fuel-indexed;
the fuel passed by calculate_pods_assignment dominates the loop counts (the
inner loop performs one increment per iteration, every slot only grows and is
bounded by the node count, and each outer pass strictly increases the last
slot), so the fuel-exhaustion branches are never taken on the source's
reachable inputs, and the safety theorems below hold for every fuel. -/

/-- Reading assignment[i] (0 is never consulted on reachable indices). -/
def aget (a : List ℤ) (i : ℕ) : ℤ :=
  a.getD i 0

/-- How the inner while loop of lines 345-356 ended: ok models falling out of
the loop with i < 0 and all_ok still true, broke models the break on
assignment[i] == len(sorted_nodes), notOk models all_ok having been set to
False. -/
inductive InnerExit
  | ok
  | broke
  | notOk
deriving DecidableEq, Repr

/-- Lines 347-356, the inner while loop: increment assignment[i]; break at the
node-count sentinel; on a feasible non-negative slot move left (i -= 1, done
when i was 0); when the slot collides with its right neighbour minus one set
all_ok to False; otherwise retry the same position. -/
def inner_loop (ns : List NodeRec) (ps : List PodRec) :
    ℕ → List ℤ → ℕ → List ℤ × InnerExit
  | 0, a, _ => (a, InnerExit.notOk)
  | fuel + 1, a, i =>
    let a' := a.set i (aget a i + 1)
    if aget a' i = (ns.length : ℤ) then (a', InnerExit.broke)
    else if 0 ≤ aget a' i ∧
        can_schedule (ns.getD (aget a' i).toNat default) (ps.getD i default) = true then
      match i with
      | 0 => (a', InnerExit.ok)
      | i' + 1 => inner_loop ns ps fuel a' i'
    else if i < a'.length - 1 ∧ aget a' i = aget a' (i + 1) - 1 then (a', InnerExit.notOk)
    else inner_loop ns ps fuel a' i

/-- Lines 360-364: the cost of a complete assignment, the sum over
i in range(1, len(sorted_pods)) of the topology distance between the nodes
assigned to consecutive pods. -/
def new_distance (ns : List NodeRec) (ps : List PodRec) (a : List ℤ) : ℕ :=
  (List.range' 1 (ps.length - 1)).foldl
    (fun s i => s + node_topology_distance
      (ns.getD (aget a i).toNat default)
      (ns.getD (aget a (i - 1)).toNat default)) 0

/-- Lines 344-367, the outer while loop: run one inner pass from the rightmost
position, stop returning best_assignment when the last slot reached the node
count, otherwise record the pass's assignment when all_ok survived and its
cost strictly improves on minimum_distance. -/
def outer_loop (ns : List NodeRec) (ps : List PodRec) :
    ℕ → List ℤ → List ℤ → ℕ → List ℤ
  | 0, _, best, _ => best
  | fuel + 1, a, best, minimum_distance =>
    let r := inner_loop ns ps (ps.length * (ns.length + ps.length) + 1) a (ps.length - 1)
    if aget r.1 (r.1.length - 1) = (ns.length : ℤ) then best
    else if r.2 ≠ InnerExit.notOk then
      let d := new_distance ns ps r.1
      if d < minimum_distance then outer_loop ns ps fuel r.1 r.1 d
      else outer_loop ns ps fuel r.1 best minimum_distance
    else outer_loop ns ps fuel r.1 best minimum_distance

/-- Lines 338-369: calculates the best assignment for pods.  The assignment
starts at [-N, ..., -1] and minimum_distance at 1000000000. -/
def calculate_pods_assignment (ns : List NodeRec) (ps : List PodRec) : List ℤ :=
  outer_loop ns ps (ns.length + ps.length + 1)
    ((List.range ps.length).map fun (i : ℕ) => (i : ℤ) - (ps.length : ℤ)) [] 1000000000

/-! ## get_pod_used_resources (lines 94-109) and find_schedulable_nodes
(lines 127-201) -/

/-- Lines 94-109: the cpu/memory/gpu requests of a pod's non-terminated
containers, zipping containers with container statuses; (0,0,0) when the pod
status or its container_statuses is None. -/
def get_pod_used_resources (pod : ApiPod) : ℚ × ℚ × ℤ :=
  match pod.status with
  | none => (0, 0, 0)
  | some st =>
    match st.container_statuses with
    | none => (0, 0, 0)
    | some statuses =>
      (pod.containers.zip statuses).foldl
        (fun acc cs =>
          if cs.2.terminated then acc
          else
            let requests := cs.1.requests.getD { cpu := none, memory := none, gpu := none }
            (acc.1 + requests.cpu.getD 0, acc.2.1 + requests.memory.getD 0,
             acc.2.2 + requests.gpu.getD 0))
        (0, 0, 0)

/-- Lines 149-160, the taint loop: skip the node when a taint's key is not
tolerated, or when an Equal-operator toleration's value mismatches. -/
def taint_skip (tolerated_taint_dict : List (String × ApiToleration)) :
    List ApiTaint → Bool
  | [] => false
  | t :: rest =>
    match tolerated_taint_dict.lookup t.key with
    | none => true
    | some tol =>
      if tol.operator = "Equal" ∧ tol.value ≠ t.value then true
      else taint_skip tolerated_taint_dict rest

/-- Lines 170-185: the free capacity of a node, allocatable minus the used
resources of the pods whose spec.node_name is this node. -/
def node_free_resources (node : ApiNode) (pods : List ApiPod) : ℚ × ℚ × ℤ :=
  let used := pods.foldl
    (fun acc pod =>
      if pod.node_name = some node.name then
        let u := get_pod_used_resources pod
        (acc.1 + u.1, acc.2.1 + u.2.1, acc.2.2 + u.2.2)
      else acc)
    (0, 0, 0)
  (node.alloc_cpu - used.1, node.alloc_memory - used.2.1,
   node.alloc_gpu.getD 0 - used.2.2)

/-- Lines 136-201, the per-node loop of find_schedulable_nodes.  A node
without the placement-group label is skipped (continue); a node with a Ready
condition whose status is not "True" executes `break`, ending the whole loop
and returning only the nodes accumulated so far; a tainted-beyond-toleration
node is skipped (continue); otherwise the node's record is appended. -/
def fsn_loop (pods : List ApiPod) (tolerated_taint_dict : List (String × ApiToleration)) :
    List ApiNode → List (String × NodeRec)
  | [] => []
  | node :: rest =>
    if (node.labels.lookup "cloud.google.com/gke-placement-group").isNone then
      fsn_loop pods tolerated_taint_dict rest
    else
      let skip_node := match node.taints with
        | none => false
        | some ts => taint_skip tolerated_taint_dict ts
      if node.conditions.any fun c => c.ctype == "Ready" && c.status != "True" then
        []
      else if skip_node then fsn_loop pods tolerated_taint_dict rest
      else
        let free := node_free_resources node pods
        (node.name,
          { name := node.name, cpu := free.1, memory := free.2.1, gpu := free.2.2,
            node_labels := node.labels }) :: fsn_loop pods tolerated_taint_dict rest

/-- Lines 127-201: finds nodes that can be scheduled.  The returned
insertion-ordered dictionary is modelled as an association list.  The
toleration dictionary keeps the first binding per key (the source's dict
comprehension keeps the last; jobs with duplicate toleration keys are out of
scope of the claims). -/
def find_schedulable_nodes (nodes : List ApiNode) (pods : List ApiPod)
    (tolerated_taints : Option (List ApiToleration)) : List (String × NodeRec) :=
  fsn_loop pods ((tolerated_taints.getD []).map fun t => (t.key, t)) nodes

/-! ## get_pods_taint_toleration (lines 112-124) -/

/-- The loop of get_pods_taint_toleration: ts starts as None and takes the
first pod's tolerations; for every later pod the source asserts
ts == tolerations, which raises AssertionError on a mismatch (modelled as
Except.error); note a pod whose tolerations attribute is None leaves ts None.
The final result is ts, or [] when ts stayed None. -/
def gptt_loop : Option (List ApiToleration) → List PodRec →
    Except String (List ApiToleration)
  | ts, [] => Except.ok (ts.getD [])
  | none, pod :: rest => gptt_loop pod.tolerations rest
  | some t, pod :: rest =>
    if pod.tolerations = some t then gptt_loop (some t) rest
    else Except.error "AssertionError: pods of one job differ in tolerations"

/-- Lines 112-124: the common taint tolerations of a job's pods, or the
uncaught AssertionError: neither schedule_pod_with_gate nor the
run_scheduling_loop try block (which catches only ApiException) handles it,
so the error terminates the process. -/
def get_pods_taint_toleration (pods : List PodRec) : Except String (List ApiToleration) :=
  gptt_loop none pods

/-! ## schedule_pod_on_node (lines 305-335) -/

/-- Lines 310-329, the pure effect of schedule_pod_on_node on the re-read
pod's gate list: when some gate carries exactly gate_name, the pod is written
back with the gates of that name filtered out (and the node-affinity pin
added); otherwise no write happens, modelled by none. -/
def schedule_pod_on_node_gates (scheduling_gates : List SchedulingGate)
    (gate_name : String) : Option (List SchedulingGate) :=
  if scheduling_gates.any fun gate => gate.name == gate_name then
    some (scheduling_gates.filter fun gate => gate.name != gate_name)
  else none

/-! ## Specification-side predicates for the assignment search -/

/-- Lexicographic less-or-equal on topology keys, Python's tuple comparison;
line 388 sorts the candidate nodes by node_topology_key, so the node list
handed to calculate_pods_assignment is pairwise related by this order.
Python compares strings lexicographically by code point, modelled by the
character-list order of the two strings. -/
def keyLe : List String → List String → Bool
  | [], _ => true
  | _ :: _, [] => false
  | a :: k1, b :: k2 => if a = b then keyLe k1 k2 else decide (a.data < b.data)

/-- Slot j of the assignment points at an in-range node on which pod j fits
(exactly the can_schedule check the search performs). -/
def feas_at (ns : List NodeRec) (ps : List PodRec) (a : List ℤ) (j : ℕ) : Prop :=
  0 ≤ aget a j ∧ aget a j < (ns.length : ℤ) ∧
  can_schedule (ns.getD (aget a j).toNat default) (ps.getD j default) = true

/-- A complete recorded assignment: one in-range feasible slot per pod, with
strictly increasing node indices. -/
def good_assignment (ns : List NodeRec) (ps : List PodRec) (a : List ℤ) : Prop :=
  a.length = ps.length ∧ (∀ j, j < ps.length → feas_at ns ps a j) ∧
  ∀ j, j + 1 < ps.length → aget a j < aget a (j + 1)

/-- State invariant between outer passes of the search: the assignment keeps
its length, is strictly increasing, and every slot is at most the node count. -/
def outer_inv (ns : List NodeRec) (ps : List PodRec) (a : List ℤ) : Prop :=
  a.length = ps.length ∧ (∀ j, j + 1 < ps.length → aget a j < aget a (j + 1)) ∧
  ∀ j, j < ps.length → aget a j ≤ (ns.length : ℤ)

/-- Invariant of the inner while loop when it is about to increment slot i:
slots above i have settled on feasible increasing in-range values, slots up to
i are still strictly increasing, and slot i has room to grow (it sits at most
at node-count minus one when it is the last slot, and at least two below its
right neighbour otherwise, so one increment never overtakes that neighbour). -/
structure InnerInv (ns : List NodeRec) (ps : List PodRec) (a : List ℤ) (i : ℕ) : Prop where
  len_eq : a.length = ps.length
  i_lt : i < ps.length
  mono_lo : ∀ j, j + 1 ≤ i → aget a j < aget a (j + 1)
  scan_bound : (i = ps.length - 1 ∧ aget a i ≤ (ns.length : ℤ) - 1) ∨
               (i + 1 < ps.length ∧ aget a i ≤ aget a (i + 1) - 2)
  settled : ∀ j, i < j → j < ps.length → feas_at ns ps a j
  mono_hi : ∀ j, i < j → j + 1 < ps.length → aget a j < aget a (j + 1)

/-! ## Concrete data used to evaluate the claims -/

/-- A node with the four topology labels and no free resources needed by the
zero-request example pods. -/
def topoNode (nm pg cl rk hs : String) : NodeRec :=
  { name := nm, cpu := 0, memory := 0, gpu := 0,
    node_labels := [("cloud.google.com/gke-placement-group", pg),
                    ("topology.gke.io/cluster", cl),
                    ("topology.gke.io/rack", rk),
                    ("topology.gke.io/host", hs)] }

/-- A zero-request pod with the given name, job and creation time. -/
def mkPod (nm : String) (job : Option String) (t : ℕ) : PodRec :=
  { name := nm, index := none, cpu := 0, memory := 0, gpu := 0,
    node_selector := none, job_name := job, creation_time := t, tolerations := none }

/-- C1 data: four nodes sorted by topology key; node n0 sits in placement
group a, nodes n1-n3 share placement group b, cluster and rack and differ
only in host. -/
def c1nodes : List NodeRec :=
  [topoNode "n0" "a" "c" "r" "h0", topoNode "n1" "b" "c" "r" "h1",
   topoNode "n2" "b" "c" "r" "h2", topoNode "n3" "b" "c" "r" "h3"]

/-- C1 data: pod 0 fits everywhere, pod 1 only on the node whose host label
is h3 (node n3). -/
def c1pods : List PodRec :=
  [mkPod "w-0" (some "job-c1") 0,
   { mkPod "w-1" (some "job-c1") 0 with
       node_selector := some [("topology.gke.io/host", "h3")] }]

/-- C2 witness data: one fully labelled node. -/
def c2nodes : List NodeRec := [topoNode "m0" "a" "c" "r" "h0"]

/-- C2 witness data: one zero-request pod. -/
def c2pods : List PodRec := [mkPod "w2-0" (some "job-c2") 0]

/-- C3 witness data: two nodes with identical topology keys. -/
def c3nodes : List NodeRec := [topoNode "k0" "a" "c" "r" "h", topoNode "k1" "a" "c" "r" "h"]

/-- C3 witness data: two zero-request pods. -/
def c3pods : List PodRec := [mkPod "w3-0" (some "job-c3") 0, mkPod "w3-1" (some "job-c3") 0]

/-- C4 witness data: two nodes agreeing on placement group and cluster and
differing at the rack coordinate. -/
def c4node1 : NodeRec := topoNode "d0" "pg" "cl" "r1" "h1"

/-- C4 witness data: second node, rack differs from c4node1. -/
def c4node2 : NodeRec := topoNode "d1" "pg" "cl" "r2" "h1"

/-- C5 data: a node carrying the placement-group label whose Ready condition
has status False. -/
def c5notReady : ApiNode :=
  { name := "node-a", labels := [("cloud.google.com/gke-placement-group", "pg0")],
    taints := none, conditions := [{ ctype := "Ready", status := "False" }],
    alloc_cpu := 1, alloc_memory := 1, alloc_gpu := some 1 }

/-- C5 data: a fully labelled, Ready, untainted node with capacity, listed
after the NotReady node. -/
def c5ready : ApiNode :=
  { name := "node-b",
    labels := [("cloud.google.com/gke-placement-group", "pg0"),
               ("topology.gke.io/cluster", "c0"), ("topology.gke.io/rack", "r0"),
               ("topology.gke.io/host", "h0")],
    taints := none, conditions := [{ ctype := "Ready", status := "True" }],
    alloc_cpu := 1, alloc_memory := 1, alloc_gpu := some 1 }

/-- C6 data: a Ready untainted node that has the placement-group label but
none of the other three topology labels. -/
def c6node : ApiNode :=
  { name := "pg-only", labels := [("cloud.google.com/gke-placement-group", "pg0")],
    taints := none, conditions := [{ ctype := "Ready", status := "True" }],
    alloc_cpu := 1, alloc_memory := 1, alloc_gpu := some 1 }

/-- C7 data: first pod of job-1. -/
def c7podA : PodRec := mkPod "a-0" (some "job-1") 5

/-- C7 data: a pod of job-2 sitting between the two job-1 pods. -/
def c7podB : PodRec := mkPod "b-0" (some "job-2") 6

/-- C7 data: second pod of job-1, not adjacent to the first. -/
def c7podC : PodRec := mkPod "a-1" (some "job-1") 5

/-- C8 data: a toleration of key k1 with value v1. -/
def c8tolA : ApiToleration := { key := "k1", operator := "Equal", value := "v1" }

/-- C8 data: a toleration of key k1 with value v2. -/
def c8tolB : ApiToleration := { key := "k1", operator := "Equal", value := "v2" }

/-- C8 data: first pod of the job, tolerating k1=v1. -/
def c8pod1 : PodRec := { mkPod "t-0" (some "job-c8") 0 with tolerations := some [c8tolA] }

/-- C8 data: second pod of the same job, tolerating k1=v2 instead. -/
def c8pod2 : PodRec := { mkPod "t-1" (some "job-c8") 0 with tolerations := some [c8tolB] }

/-- C9 witness data: a gate of the daemon's default prefix next to a foreign
gate. -/
def c9gates : List SchedulingGate :=
  [{ name := "gke.io/topology-aware-auto-x" }, { name := "other/gate-y" }]

/-- C10 data: a pod whose name consists entirely of digits and whose
completion-index label is absent. -/
def c10podDigits : PodRec := mkPod "123" (some "job-c10") 0

/-- C10 data: a pod whose name has a non-digit character before the numeric
suffix. -/
def c10podMixed : PodRec := mkPod "xxx-pod10" (some "job-c10") 0

/-! # Theorems -/

/-- Walking a key against itself never finds a mismatch, so the distance loop
falls through and returns 0. -/
theorem dist_go_self : ∀ (k : List String) (r : ℕ), dist_go k k r = 0
  | [], _ => rfl
  | a :: k, r => by
    rw [dist_go, if_neg]
    · exact dist_go_self k (r / 100)
    · exact fun h => h rfl

/-- A list of length four is literally a four-element list. -/
theorem exists_four {l : List String} (h : l.length = 4) :
    ∃ a b c d, l = [a, b, c, d] := by
  rcases l with _ | ⟨a, _ | ⟨b, _ | ⟨c, _ | ⟨d, _ | ⟨e, t⟩⟩⟩⟩⟩
  · simp at h
  · simp at h
  · simp at h
  · simp at h
  · exact ⟨a, b, c, d, rfl⟩
  · simp at h

/-- Claim C4: for every pair of nodes whose topology keys are full 4-tuples,
node_topology_distance returns 0 when the keys are equal, and otherwise
10^(6 - 2*i) where i is the 0-indexed position of the first differing
coordinate (10^6 for placement group, 10^4 for cluster, 10^2 for rack, 1 for
host). -/
theorem node_topology_distance_law (node1 node2 : NodeRec)
    (h1 : (node_topology_key node1).length = 4)
    (h2 : (node_topology_key node2).length = 4) :
    (node_topology_key node1 = node_topology_key node2 →
      node_topology_distance node1 node2 = 0) ∧
    (node_topology_key node1 ≠ node_topology_key node2 →
      node_topology_distance node1 node2 =
        10 ^ (6 - 2 * first_diff (node_topology_key node1) (node_topology_key node2))) := by
  obtain ⟨a1, b1, c1, d1, hk1⟩ := exists_four h1
  obtain ⟨a2, b2, c2, d2, hk2⟩ := exists_four h2
  unfold node_topology_distance
  rw [hk1, hk2]
  constructor
  · intro heq
    rw [heq]
    exact dist_go_self _ _
  · intro hne
    by_cases ha : a1 = a2
    · subst ha
      by_cases hb : b1 = b2
      · subst hb
        by_cases hc : c1 = c2
        · subst hc
          by_cases hd : d1 = d2
          · exact absurd (by rw [hd]) hne
          · simp [dist_go, first_diff, hd]
        · simp [dist_go, first_diff, hc]
      · simp [dist_go, first_diff, hb]
    · simp [dist_go, first_diff, ha]

/-- Witness for C4 at two concrete nodes differing first at the rack
coordinate (position 2), giving distance 100. -/
theorem node_topology_distance_law_witness :
    node_topology_distance c4node1 c4node2 = 100 := by
  have h := (node_topology_distance_law c4node1 c4node2 (by decide) (by decide)).2 (by decide)
  rw [h]
  decide

/-- Claim C5 (code bug): the source breaks out of the whole node loop on the
first NotReady node instead of skipping it: listed after a NotReady node, a
fully eligible Ready node is dropped from the result, although the same node
alone is returned. -/
theorem find_schedulable_nodes_break_on_not_ready :
    find_schedulable_nodes [c5notReady, c5ready] [] none = [] ∧
    (find_schedulable_nodes [c5ready] [] none).map Prod.fst = ["node-b"] := by
  decide

/-- Claim C6 counterexample: a Ready, untainted node carrying only the
placement-group label — the other three topology labels missing — is returned
by find_schedulable_nodes (with an empty topology key) instead of being
excluded. -/
theorem find_schedulable_nodes_keeps_partial_topology :
    (find_schedulable_nodes [c6node] [] none).map Prod.fst = ["pg-only"] ∧
    node_topology_key ((find_schedulable_nodes [c6node] [] none).headD default).2 = [] := by
  decide

/-- Every entry produced by the node loop comes from an input node carrying
the placement-group label (the only label the loop checks for). -/
theorem fsn_loop_placement_group (pods : List ApiPod)
    (tdict : List (String × ApiToleration)) :
    ∀ (nodes : List ApiNode), ∀ entry ∈ fsn_loop pods tdict nodes,
      ∃ node ∈ nodes, node.name = entry.1 ∧
        (node.labels.lookup "cloud.google.com/gke-placement-group").isSome = true := by
  intro nodes
  induction nodes with
  | nil =>
    intro entry h
    simp [fsn_loop] at h
  | cons node rest ih =>
    intro entry h
    simp only [fsn_loop] at h
    split at h
    · obtain ⟨n, hn, hx⟩ := ih entry h
      exact ⟨n, List.mem_cons_of_mem _ hn, hx⟩
    · rename_i hpg
      split at h
      · simp at h
      · split at h
        · obtain ⟨n, hn, hx⟩ := ih entry h
          exact ⟨n, List.mem_cons_of_mem _ hn, hx⟩
        · rcases List.mem_cons.mp h with hEq | hMem
          · refine ⟨node, List.mem_cons_self _ _, ?_, ?_⟩
            · rw [hEq]
            · cases hx : node.labels.lookup "cloud.google.com/gke-placement-group" with
              | none => rw [hx] at hpg; simp at hpg
              | some v => rfl
          · obtain ⟨n, hn, hx⟩ := ih entry hMem
            exact ⟨n, List.mem_cons_of_mem _ hn, hx⟩

/-- Claim C6 (amended): find_schedulable_nodes only requires the
placement-group label: every key of the returned map names an input node that
carries cloud.google.com/gke-placement-group; the other three topology labels
are not checked (a node lacking only them is retained, see the
counterexample). -/
theorem find_schedulable_nodes_requires_placement_group
    (nodes : List ApiNode) (pods : List ApiPod)
    (tolerated_taints : Option (List ApiToleration)) :
    ∀ nm ∈ (find_schedulable_nodes nodes pods tolerated_taints).map Prod.fst,
      ∃ node ∈ nodes, node.name = nm ∧
        (node.labels.lookup "cloud.google.com/gke-placement-group").isSome = true := by
  intro nm h
  obtain ⟨entry, hmem, hfst⟩ := List.mem_map.mp h
  obtain ⟨node, hn, hname, hlabel⟩ :=
    fsn_loop_placement_group pods _ nodes entry hmem
  exact ⟨node, hn, hfst ▸ hname, hlabel⟩

/-- Witness for the amended C6 theorem at the single-node example. -/
theorem find_schedulable_nodes_requires_placement_group_witness :
    ∃ node ∈ [c6node], node.name = "pg-only" ∧
      (node.labels.lookup "cloud.google.com/gke-placement-group").isSome = true := by
  apply find_schedulable_nodes_requires_placement_group [c6node] [] none
  decide

/-- Claim C8 (code bug): two pods of one job with differing tolerations make
the source's assert fail — get_pods_taint_toleration reaches the
AssertionError, which no caller catches (the run loop handles only
ApiException), while agreeing tolerations produce the common list. -/
theorem get_pods_taint_toleration_assert_fires :
    get_pods_taint_toleration [c8pod1, c8pod2] =
      Except.error "AssertionError: pods of one job differ in tolerations" ∧
    get_pods_taint_toleration [c8pod1, { c8pod1 with name := "t-2" }] =
      Except.ok [c8tolA] :=
  ⟨rfl, rfl⟩

/-- Claim C9: when the re-read pod's gate list still contains the target gate
name, the written gate list is the original with exactly the gates named
gate_name removed — every other gate, including other gates sharing the
prefix, is kept in order (a sublist) — and no write happens precisely when no
gate carries that name. -/
theorem schedule_pod_on_node_gates_spec (scheduling_gates : List SchedulingGate)
    (gate_name : String) :
    (∀ new_gates, schedule_pod_on_node_gates scheduling_gates gate_name = some new_gates →
      new_gates.Sublist scheduling_gates ∧
      (∀ g ∈ scheduling_gates, (g ∈ new_gates ↔ g.name ≠ gate_name)) ∧
      ∀ g ∈ new_gates, g.name ≠ gate_name) ∧
    (schedule_pod_on_node_gates scheduling_gates gate_name = none ↔
      ∀ g ∈ scheduling_gates, g.name ≠ gate_name) := by
  unfold schedule_pod_on_node_gates
  by_cases hany : (scheduling_gates.any fun gate => gate.name == gate_name) = true
  · rw [if_pos hany]
    refine ⟨?_, ?_, ?_⟩
    · intro new_gates hng
      injection hng with hng
      subst hng
      refine ⟨List.filter_sublist _, ?_, ?_⟩
      · intro g hg
        rw [List.mem_filter]
        simp [hg, bne_iff_ne]
      · intro g hg
        have := (List.mem_filter.mp hg).2
        exact bne_iff_ne.mp this
    · intro h
      cases h
    · intro hall
      obtain ⟨g, hg, hbeq⟩ := List.any_eq_true.mp hany
      exact absurd (eq_of_beq hbeq) (hall g hg)
  · rw [if_neg hany]
    refine ⟨?_, ?_, fun _ => rfl⟩
    · intro new_gates hng
      cases hng
    · intro _ g hg
      intro hname
      exact hany (List.any_eq_true.mpr ⟨g, hg, beq_iff_eq.mpr hname⟩)

/-- Witness for C9: removing the default-prefix gate keeps the foreign gate. -/
theorem schedule_pod_on_node_gates_spec_witness :
    ({ name := "other/gate-y" } : SchedulingGate) ∈ c9gates ∧
    (({ name := "other/gate-y" } : SchedulingGate) ∈
        [({ name := "other/gate-y" } : SchedulingGate)] ↔
      ("other/gate-y" : String) ≠ "gke.io/topology-aware-auto-x") := by
  have h := (schedule_pod_on_node_gates_spec c9gates "gke.io/topology-aware-auto-x").1
    [{ name := "other/gate-y" }] (by decide)
  exact ⟨by decide, h.2.1 { name := "other/gate-y" } (by decide)⟩

/-- The trailing-digit scan succeeds exactly when some scanned character is
not a digit. -/
theorem suffix_scan_isSome : ∀ l : List Char,
    (suffix_scan l).isSome = true ↔ ∃ c ∈ l, c.isDigit = false := by
  intro l
  induction l with
  | nil => simp [suffix_scan]
  | cons c rest ih =>
    by_cases hc : c.isDigit
    · simp [suffix_scan, hc, ih]
    · simp [suffix_scan, hc]

/-- Claim C10: when the completion-index label is absent, pod_sorting_key is
defined iff the pod's name contains a non-digit character — an all-digit name
drives the trailing-digit scan past the start of the string, hitting the
IndexError branch — and every defined result of that branch is a
(name-without-suffix, number) pair. -/
theorem pod_sorting_key_defined_iff (pod : PodRec) (h : pod.index = none) :
    ((pod_sorting_key pod).isSome = true ↔ ∃ c ∈ pod.name.data, c.isDigit = false) ∧
    ∀ k, pod_sorting_key pod = some k → ∃ pre idx, k = Sum.inr (pre, idx) := by
  have hred : pod_sorting_key pod =
      (suffix_scan pod.name.data.reverse).map fun suffix =>
        let idx : ℤ := if suffix ≠ [] then digits_val suffix else 0
        Sum.inr (⟨pod.name.data.take (pod.name.length - suffix.length)⟩, idx) := by
    unfold pod_sorting_key
    rw [h]
  constructor
  · rw [hred, Option.isSome_map', suffix_scan_isSome]
    constructor
    · rintro ⟨c, hc, hd⟩
      exact ⟨c, List.mem_reverse.mp hc, hd⟩
    · rintro ⟨c, hc, hd⟩
      exact ⟨c, List.mem_reverse.mpr hc, hd⟩
  · intro k hk
    rw [hred] at hk
    obtain ⟨s, _, rfl⟩ := Option.map_eq_some'.mp hk
    exact ⟨_, _, rfl⟩

/-- Witness for C10: the all-digit name "123" has no defined key, the mixed
name "xxx-pod10" does. -/
theorem pod_sorting_key_defined_iff_witness :
    (pod_sorting_key c10podDigits).isSome = false ∧
    (pod_sorting_key c10podMixed).isSome = true := by
  constructor
  · have h := (pod_sorting_key_defined_iff c10podDigits rfl).1
    rw [Bool.eq_false_iff]
    intro hs
    have hex := h.mp hs
    revert hex
    decide
  · exact (pod_sorting_key_defined_iff c10podMixed rfl).1.mpr (by decide)

/-- Claim C7 counterexample: with two job-1 pods separated by a job-2 pod,
split_pods_based_on_jobs produces three groups, two of which hold job-1 pods:
the pods of one job do not form exactly one group when not adjacent in the
input. -/
theorem split_pods_splits_nonadjacent_job :
    split_pods_based_on_jobs [c7podA, c7podB, c7podC] =
      [[c7podA], [c7podB], [c7podC]] ∧
    ((split_pods_based_on_jobs [c7podA, c7podB, c7podC]).countP
      fun g => g.any fun p => p.job_name == some "job-1") = 2 := by
  decide

/-- Splitter equation: empty tail split. -/
theorem split_cons_of_nil {p : PodRec} {ps : List PodRec}
    (hs : split_pods_based_on_jobs ps = []) :
    split_pods_based_on_jobs (p :: ps) = [[p]] := by
  rw [split_pods_based_on_jobs, hs]

/-- Splitter equation: empty leading group (never produced, handled for
totality). -/
theorem split_cons_of_nil_group {p : PodRec} {ps : List PodRec}
    {gs : List (List PodRec)} (hs : split_pods_based_on_jobs ps = [] :: gs) :
    split_pods_based_on_jobs (p :: ps) = [p] :: gs := by
  rw [split_pods_based_on_jobs, hs]

/-- Splitter equation: non-empty leading group. -/
theorem split_cons_of_cons {p q : PodRec} {ps g : List PodRec}
    {gs : List (List PodRec)}
    (hs : split_pods_based_on_jobs ps = (q :: g) :: gs) :
    split_pods_based_on_jobs (p :: ps) =
      if (p.job_name == q.job_name) = true then (p :: q :: g) :: gs
      else [p] :: (q :: g) :: gs := by
  rw [split_pods_based_on_jobs, hs]

/-- The groups produced by the splitter concatenate back to the input. -/
theorem split_pods_flatten : ∀ ps : List PodRec,
    (split_pods_based_on_jobs ps).flatten = ps
  | [] => rfl
  | p :: ps => by
    have ih := split_pods_flatten ps
    rcases hs : split_pods_based_on_jobs ps with _ | ⟨g, gs⟩
    · rw [hs] at ih
      simp only [List.flatten_nil] at ih
      rw [split_cons_of_nil hs, ← ih]
      rfl
    · rw [hs] at ih
      rcases g with _ | ⟨q, g⟩
      · rw [split_cons_of_nil_group hs]
        simp at ih ⊢
        exact ih
      · rw [split_cons_of_cons hs]
        by_cases hkey : (p.job_name == q.job_name) = true
        · rw [if_pos hkey]
          simp at ih ⊢
          exact ih
        · rw [if_neg hkey]
          simp at ih ⊢
          exact ih

/-- Each group of the splitter is a non-empty run of pods agreeing with the
group's first pod on job_name, and adjacent groups have different job names
(the runs are maximal). -/
theorem split_pods_groups_spec : ∀ ps : List PodRec,
    (∀ g ∈ split_pods_based_on_jobs ps, g ≠ [] ∧
      ∀ p ∈ g, p.job_name = (g.headD default).job_name) ∧
    (split_pods_based_on_jobs ps).Chain'
      (fun g1 g2 => (g1.headD default).job_name ≠ (g2.headD default).job_name)
  | [] => ⟨fun g hg => absurd hg (List.not_mem_nil g), List.chain'_nil⟩
  | p :: ps => by
    have ih := split_pods_groups_spec ps
    rcases hs : split_pods_based_on_jobs ps with _ | ⟨g, gs⟩
    · rw [split_cons_of_nil hs]
      refine ⟨?_, List.chain'_singleton _⟩
      intro g hg
      rcases List.mem_cons.mp hg with rfl | hg
      · refine ⟨List.cons_ne_nil _ _, ?_⟩
        intro x hx
        rcases List.mem_cons.mp hx with rfl | hx
        · rfl
        · exact absurd hx (List.not_mem_nil x)
      · exact absurd hg (List.not_mem_nil g)
    · rw [hs] at ih
      rcases g with _ | ⟨q, g⟩
      · exact absurd rfl (ih.1 [] (List.mem_cons_self _ _)).1
      · rw [split_cons_of_cons hs]
        by_cases hkey : (p.job_name == q.job_name) = true
        · rw [if_pos hkey]
          have hpq : p.job_name = q.job_name := eq_of_beq hkey
          refine ⟨?_, ?_⟩
          · intro g' hg'
            rcases List.mem_cons.mp hg' with rfl | hg'
            · refine ⟨List.cons_ne_nil _ _, ?_⟩
              intro x hx
              rcases List.mem_cons.mp hx with rfl | hx
              · rfl
              · have := (ih.1 (q :: g) (List.mem_cons_self _ _)).2 x hx
                simpa [hpq] using this
            · exact ih.1 g' (List.mem_cons_of_mem _ hg')
          · rcases gs with _ | ⟨g2, gs⟩
            · exact List.chain'_singleton _
            · have hch := ih.2
              rw [List.chain'_cons] at hch ⊢
              refine ⟨?_, hch.2⟩
              simpa [hpq] using hch.1
        · rw [if_neg hkey]
          have hpq : p.job_name ≠ q.job_name := by
            intro h
            exact hkey (beq_iff_eq.mpr h)
          refine ⟨?_, ?_⟩
          · intro g' hg'
            rcases List.mem_cons.mp hg' with rfl | hg'
            · refine ⟨List.cons_ne_nil _ _, ?_⟩
              intro x hx
              rcases List.mem_cons.mp hx with rfl | hx
              · rfl
              · exact absurd hx (List.not_mem_nil x)
            · exact ih.1 g' hg'
          · rw [List.chain'_cons]
            exact ⟨hpq, ih.2⟩

/-- Inserting a job into a resident list is a permutation of consing it. -/
theorem insert_job_perm (job : List PodRec) : ∀ js, (insert_job job js).Perm (job :: js)
  | [] => List.Perm.refl _
  | j :: js => by
    rw [insert_job]
    split
    · exact List.Perm.refl _
    · exact ((insert_job_perm job js).cons j).trans (List.Perm.swap job j js)

/-- The modelled stable sort permutes its input. -/
theorem sorted_jobs_perm : ∀ js, (sorted_jobs js).Perm js
  | [] => List.Perm.refl _
  | j :: js => (insert_job_perm j (sorted_jobs js)).trans ((sorted_jobs_perm js).cons j)

/-- Ordered insertion preserves sortedness by creation time. -/
theorem insert_job_pairwise (job : List PodRec) : ∀ js,
    js.Pairwise (fun x y => sort_jobs_by_time x ≤ sort_jobs_by_time y) →
    (insert_job job js).Pairwise (fun x y => sort_jobs_by_time x ≤ sort_jobs_by_time y)
  | [], _ => by simp [insert_job]
  | j :: js, h => by
    rw [insert_job]
    obtain ⟨hj, hjs⟩ := List.pairwise_cons.mp h
    split
    · rename_i hle
      refine List.pairwise_cons.mpr ⟨?_, h⟩
      intro x hx
      rcases List.mem_cons.mp hx with rfl | hx
      · exact hle
      · exact le_trans hle (hj x hx)
    · rename_i hgt
      have hle : sort_jobs_by_time j ≤ sort_jobs_by_time job := Nat.le_of_not_le hgt
      refine List.pairwise_cons.mpr ⟨?_, insert_job_pairwise job js hjs⟩
      intro x hx
      have hx' := (insert_job_perm job js).mem_iff.mp hx
      rcases List.mem_cons.mp hx' with rfl | hx''
      · exact hle
      · exact hj x hx''

/-- The modelled stable sort is sorted by creation time. -/
theorem sorted_jobs_pairwise : ∀ js,
    (sorted_jobs js).Pairwise (fun x y => sort_jobs_by_time x ≤ sort_jobs_by_time y)
  | [] => List.Pairwise.nil
  | j :: js => insert_job_pairwise j (sorted_jobs js) (sorted_jobs_pairwise js)

/-- Claim C7 (amended): split_pods_based_on_jobs groups maximal consecutive
runs of pods sharing a job_name — the pods of one job form a single group
only when adjacent in the input (itertools.groupby semantics) — and
schedule_pod_with_gate processes those groups sorted stably by the creation
time of their first pod, ascending. -/
theorem split_pods_and_sort_spec (pods : List PodRec) :
    (split_pods_based_on_jobs pods).flatten = pods ∧
    (∀ g ∈ split_pods_based_on_jobs pods, g ≠ [] ∧
      ∀ p ∈ g, ∀ q ∈ g, p.job_name = q.job_name) ∧
    (split_pods_based_on_jobs pods).Chain'
      (fun g1 g2 => (g1.headD default).job_name ≠ (g2.headD default).job_name) ∧
    (scheduled_job_order pods).Perm (split_pods_based_on_jobs pods) ∧
    (scheduled_job_order pods).Pairwise
      (fun j1 j2 => sort_jobs_by_time j1 ≤ sort_jobs_by_time j2) := by
  refine ⟨split_pods_flatten pods, ?_, (split_pods_groups_spec pods).2,
    sorted_jobs_perm _, sorted_jobs_pairwise _⟩
  intro g hg
  obtain ⟨hne, hhead⟩ := (split_pods_groups_spec pods).1 g hg
  exact ⟨hne, fun p hp q hq => (hhead p hp).trans (hhead q hq).symm⟩

/-- Witness for the amended C7 theorem at the three-pod example. -/
theorem split_pods_and_sort_spec_witness :
    (split_pods_based_on_jobs [c7podA, c7podB, c7podC]).flatten =
      [c7podA, c7podB, c7podC] ∧
    [c7podA] ≠ ([] : List PodRec) := by
  have h := split_pods_and_sort_spec [c7podA, c7podB, c7podC]
  exact ⟨h.1, (h.2.1 [c7podA] (by decide)).1⟩

/-- Claim C1 (code bug): the search is not an exhaustive minimization.  On
this concrete instance — four nodes sorted by topology key, pod 0 schedulable
everywhere, pod 1 only on the last node — calculate_pods_assignment returns
[0, 3], of cost 1000000, even though [2, 3] is a strictly increasing
assignment whose slots both satisfy can_schedule and whose cost is 1: the
returned assignment does not minimize the summed topology distance. -/
theorem calculate_pods_assignment_not_minimal :
    calculate_pods_assignment c1nodes c1pods = [0, 3] ∧
    (0 : ℤ) ≤ 2 ∧ (2 : ℤ) < 3 ∧ (3 : ℤ) < (c1nodes.length : ℤ) ∧
    can_schedule (c1nodes.getD 2 default) (c1pods.getD 0 default) = true ∧
    can_schedule (c1nodes.getD 3 default) (c1pods.getD 1 default) = true ∧
    new_distance c1nodes c1pods [2, 3] <
      new_distance c1nodes c1pods (calculate_pods_assignment c1nodes c1pods) ∧
    List.Pairwise (fun n1 n2 => keyLe (node_topology_key n1) (node_topology_key n2) = true)
      c1nodes := by
  decide

/-! ## Invariant proofs for the assignment search -/

/-- Reading the slot that was just written. -/
theorem aget_set_self : ∀ (a : List ℤ) (i : ℕ) (v : ℤ), i < a.length →
    aget (a.set i v) i = v
  | [], i, _, h => absurd h (Nat.not_lt_zero i)
  | _ :: _, 0, _, _ => rfl
  | _ :: xs, n + 1, v, h => aget_set_self xs n v (Nat.lt_of_succ_lt_succ h)

/-- Reading any other slot is unchanged by a write. -/
theorem aget_set_ne : ∀ (a : List ℤ) (i j : ℕ) (v : ℤ), i ≠ j →
    aget (a.set i v) j = aget a j
  | [], _, _, _, _ => rfl
  | _ :: _, 0, 0, _, h => absurd rfl h
  | _ :: _, 0, _ + 1, _, _ => rfl
  | _ :: _, _ + 1, 0, _, _ => rfl
  | _ :: xs, i + 1, j + 1, v, h =>
    aget_set_ne xs i j v (fun hij => h (congrArg Nat.succ hij))

/-- In-range reads coincide with List.get. -/
theorem aget_eq_get (a : List ℤ) (i : ℕ) (h : i < a.length) :
    aget a i = a.get ⟨i, h⟩ := by
  unfold aget
  rw [List.getD_eq_getElem a 0 h]
  simp [List.get_eq_getElem]

/-- A strictly increasing chain of adjacent links is weakly increasing up to
its top. -/
theorem aget_chain_le (a : List ℤ) : ∀ (i : ℕ),
    (∀ j, j + 1 ≤ i → aget a j < aget a (j + 1)) →
    ∀ j, j ≤ i → aget a j ≤ aget a i
  | 0, _, j, hj => by rw [Nat.le_zero.mp hj]
  | k + 1, h, j, hj => by
    rcases Nat.lt_or_ge j (k + 1) with hlt | hge
    · have hk : aget a j ≤ aget a k :=
        aget_chain_le a k (fun j' hj' => h j' (Nat.le_succ_of_le hj')) j
          (Nat.lt_succ_iff.mp hlt)
      exact le_trans hk (le_of_lt (h k (Nat.le_refl _)))
    · rw [Nat.le_antisymm hj hge]

/-- Adjacent strict links give strict growth between any two positions. -/
theorem aget_strict_chain (a : List ℤ) (n : ℕ)
    (h : ∀ j, j + 1 < n → aget a j < aget a (j + 1)) :
    ∀ j, j < n → ∀ i, i < j → aget a i < aget a j
  | 0, _, i, hi => absurd hi (Nat.not_lt_zero i)
  | k + 1, hk, i, hi => by
    rcases Nat.lt_or_ge i k with hik | hik
    · exact lt_trans (aget_strict_chain a n h k (by omega) i hik) (h k hk)
    · have hieq : i = k := by omega
      subst hieq
      exact h i hk

/-- Feasibility of a slot only depends on the value stored there. -/
theorem feas_at_congr {ns : List NodeRec} {ps : List PodRec} {a b : List ℤ} (j : ℕ)
    (h : aget b j = aget a j) (hf : feas_at ns ps a j) : feas_at ns ps b j := by
  unfold feas_at at hf ⊢
  rw [h]
  exact hf

/-- A complete recorded assignment satisfies the between-pass invariant. -/
theorem good_assignment_outer_inv {ns : List NodeRec} {ps : List PodRec} {a : List ℤ}
    (h : good_assignment ns ps a) : outer_inv ns ps a :=
  ⟨h.1, h.2.2, fun j hj => le_of_lt (h.2.1 j hj).2.1⟩

/-- The inner-loop invariant implies the between-pass invariant. -/
theorem inner_inv_outer_inv {ns : List NodeRec} {ps : List PodRec} {a : List ℤ} {i : ℕ}
    (h : InnerInv ns ps a i) : outer_inv ns ps a := by
  obtain ⟨hlen, hi, hmono, hsb, hset, hmhi⟩ := h
  refine ⟨hlen, ?_, ?_⟩
  · intro j hj
    rcases hsb with ⟨hieq, _⟩ | ⟨hiN, hb⟩
    · exact hmono j (by omega)
    · rcases Nat.lt_trichotomy (j + 1) (i + 1) with hlt | heq | hgt
      · exact hmono j (by omega)
      · have hji : j = i := by omega
        subst hji
        omega
      · exact hmhi j (by omega) hj
  · intro j hj
    rcases hsb with ⟨hieq, hb⟩ | ⟨hiN, hb⟩
    · have hchain := aget_chain_le a i hmono j (by omega)
      omega
    · rcases Nat.lt_trichotomy j i with hlt | heq | hgt
      · have hchain := aget_chain_le a i hmono j (by omega)
        have hb2 := (hset (i + 1) (by omega) hiN).2.1
        omega
      · subst heq
        have hb2 := (hset (j + 1) (by omega) hiN).2.1
        omega
      · exact le_of_lt (hset j hgt hj).2.1

/-- One inner pass preserves the invariants: an ok exit yields a complete
feasible strictly increasing assignment, a break can only happen at the last
slot (which then holds the node count), and the between-pass invariant holds
in every case. -/
theorem inner_loop_spec (ns : List NodeRec) (ps : List PodRec) :
    ∀ (fuel : ℕ) (a : List ℤ) (i : ℕ), InnerInv ns ps a i →
      ((inner_loop ns ps fuel a i).2 = InnerExit.ok →
        good_assignment ns ps (inner_loop ns ps fuel a i).1) ∧
      ((inner_loop ns ps fuel a i).2 = InnerExit.broke →
        aget (inner_loop ns ps fuel a i).1 (ps.length - 1) = (ns.length : ℤ)) ∧
      outer_inv ns ps (inner_loop ns ps fuel a i).1 := by
  intro fuel
  induction fuel with
  | zero =>
    intro a i hinv
    refine ⟨?_, ?_, inner_inv_outer_inv hinv⟩
    · intro h
      simp [inner_loop] at h
    · intro h
      simp [inner_loop] at h
  | succ fuel ih =>
    intro a i hinv
    have hlen : a.length = ps.length := hinv.len_eq
    have hiN : i < ps.length := hinv.i_lt
    simp only [inner_loop]
    generalize hga : a.set i (aget a i + 1) = a2
    have hlen2 : a2.length = ps.length := by
      rw [← hga, List.length_set]
      exact hlen
    have hself : aget a2 i = aget a i + 1 := by
      rw [← hga]
      exact aget_set_self a i _ (by omega)
    have hother : ∀ j, j ≠ i → aget a2 j = aget a j := by
      intro j hj
      rw [← hga]
      exact aget_set_ne a i j _ (fun h => hj h.symm)
    by_cases hM : aget a2 i = (ns.length : ℤ)
    · rw [if_pos hM]
      have hieq : i = ps.length - 1 := by
        rcases hinv.scan_bound with ⟨hieq, _⟩ | ⟨hiN1, hb⟩
        · exact hieq
        · exfalso
          have hs1 := (hinv.settled (i + 1) (by omega) hiN1).2.1
          omega
      refine ⟨fun h => by simp at h, fun _ => ?_, ?_⟩
      · show aget a2 (ps.length - 1) = (ns.length : ℤ)
        rw [← hieq]
        exact hM
      · show outer_inv ns ps a2
        refine ⟨hlen2, ?_, ?_⟩
        · intro j hj
          rcases Nat.lt_or_ge (j + 1) i with hlt | hge
          · rw [hother j (by omega), hother (j + 1) (by omega)]
            exact hinv.mono_lo j (by omega)
          · have hj1i : j + 1 = i := by omega
            have hm := hinv.mono_lo j (by omega)
            rw [hother j (by omega), hj1i, hself]
            rw [hj1i] at hm
            omega
        · intro j hj
          rcases Nat.lt_trichotomy j i with hlt | heq | hgt
          · rw [hother j (by omega)]
            have hchain := aget_chain_le a i hinv.mono_lo j (by omega)
            omega
          · subst heq
            omega
          · omega
    · rw [if_neg hM]
      by_cases hfeas : 0 ≤ aget a2 i ∧
          can_schedule (ns.getD (aget a2 i).toNat default) (ps.getD i default) = true
      · rw [if_pos hfeas]
        have hlt : aget a2 i < (ns.length : ℤ) := by
          rcases hinv.scan_bound with ⟨hieq, hb⟩ | ⟨hiN1, hb⟩
          · omega
          · have hs1 := (hinv.settled (i + 1) (by omega) hiN1).2.1
            have hb2 := hother (i + 1) (by omega)
            omega
        have hfa : feas_at ns ps a2 i := ⟨hfeas.1, hlt, hfeas.2⟩
        cases i with
        | zero =>
          have hgood : good_assignment ns ps a2 := by
            refine ⟨hlen2, ?_, ?_⟩
            · intro j hj
              rcases Nat.eq_zero_or_pos j with rfl | hpos
              · exact hfa
              · exact feas_at_congr j (hother j (by omega)) (hinv.settled j (by omega) hj)
            · intro j hj
              rcases Nat.eq_zero_or_pos j with rfl | hpos
              · rcases hinv.scan_bound with ⟨hieq, _⟩ | ⟨_, hb⟩
                · omega
                · have hb1 : aget a 0 ≤ aget a 1 - 2 := by simpa using hb
                  rw [hself, hother 1 (by omega)]
                  omega
              · rw [hother j (by omega), hother (j + 1) (by omega)]
                exact hinv.mono_hi j (by omega) hj
          exact ⟨fun _ => hgood, fun h => by simp at h,
            good_assignment_outer_inv hgood⟩
        | succ i' =>
          have hinv' : InnerInv ns ps a2 i' := by
            refine ⟨hlen2, by omega, ?_, ?_, ?_, ?_⟩
            · intro j hj
              rw [hother j (by omega), hother (j + 1) (by omega)]
              exact hinv.mono_lo j (by omega)
            · refine Or.inr ⟨by omega, ?_⟩
              have hm := hinv.mono_lo i' (by omega)
              rw [hother i' (by omega), hself]
              omega
            · intro j hj1 hj2
              rcases Nat.lt_or_ge (i' + 1) j with hgt | hle
              · exact feas_at_congr j (hother j (by omega)) (hinv.settled j (by omega) hj2)
              · have hji : j = i' + 1 := by omega
                subst hji
                exact hfa
            · intro j hj1 hj2
              rcases Nat.lt_or_ge (i' + 1) j with hgt | hle
              · rw [hother j (by omega), hother (j + 1) (by omega)]
                exact hinv.mono_hi j (by omega) hj2
              · have hji : j = i' + 1 := by omega
                subst hji
                rcases hinv.scan_bound with ⟨hieq, _⟩ | ⟨_, hb⟩
                · omega
                · rw [hself, hother (i' + 1 + 1) (by omega)]
                  omega
          exact ih a2 i' hinv'
      · rw [if_neg hfeas]
        by_cases hbail : i < a2.length - 1 ∧ aget a2 i = aget a2 (i + 1) - 1
        · rw [if_pos hbail]
          have hiN1 : i + 1 < ps.length := by
            have := hbail.1
            omega
          have hb2 : aget a2 (i + 1) = aget a (i + 1) := hother _ (by omega)
          have hs1 := (hinv.settled (i + 1) (by omega) hiN1).2.1
          refine ⟨fun h => by simp at h, fun h => by simp at h, ?_⟩
          show outer_inv ns ps a2
          refine ⟨hlen2, ?_, ?_⟩
          · intro j hj
            rcases Nat.lt_trichotomy j i with hlt | heq | hgt
            · rcases Nat.lt_or_ge (j + 1) i with hlt2 | hge2
              · rw [hother j (by omega), hother (j + 1) (by omega)]
                exact hinv.mono_lo j (by omega)
              · have hj1i : j + 1 = i := by omega
                have hm := hinv.mono_lo j (by omega)
                rw [hother j (by omega), hj1i, hself]
                rw [hj1i] at hm
                omega
            · subst heq
              have := hbail.2
              omega
            · rw [hother j (by omega), hother (j + 1) (by omega)]
              exact hinv.mono_hi j hgt hj
          · intro j hj
            rcases Nat.lt_trichotomy j i with hlt | heq | hgt
            · rw [hother j (by omega)]
              have hchain := aget_chain_le a i hinv.mono_lo j (by omega)
              have := hbail.2
              omega
            · subst heq
              have := hbail.2
              omega
            · rw [hother j (by omega)]
              exact le_of_lt (hinv.settled j hgt hj).2.1
        · rw [if_neg hbail]
          have hinv' : InnerInv ns ps a2 i := by
            refine ⟨hlen2, hiN, ?_, ?_, ?_, ?_⟩
            · intro j hj
              rcases Nat.lt_or_ge (j + 1) i with hlt | hge
              · rw [hother j (by omega), hother (j + 1) (by omega)]
                exact hinv.mono_lo j (by omega)
              · have hj1i : j + 1 = i := by omega
                have hm := hinv.mono_lo j (by omega)
                rw [hother j (by omega), hj1i, hself]
                rw [hj1i] at hm
                omega
            · rcases hinv.scan_bound with ⟨hieq, hb⟩ | ⟨hiN1, hb⟩
              · exact Or.inl ⟨hieq, by omega⟩
              · refine Or.inr ⟨hiN1, ?_⟩
                have hfst : i < a2.length - 1 := by omega
                have hsnd : aget a2 i ≠ aget a2 (i + 1) - 1 := fun hx => hbail ⟨hfst, hx⟩
                have hb2 : aget a2 (i + 1) = aget a (i + 1) := hother _ (by omega)
                omega
            · intro j hj1 hj2
              exact feas_at_congr j (hother j (by omega)) (hinv.settled j hj1 hj2)
            · intro j hj1 hj2
              rw [hother j (by omega), hother (j + 1) (by omega)]
              exact hinv.mono_hi j hj1 hj2
          exact ih a2 i hinv'

/-- Between passes, the invariant re-establishes the inner-loop entry
invariant at the last slot whenever that slot has not reached the node
count. -/
theorem outer_inv_inner_inv {ns : List NodeRec} {ps : List PodRec} {a : List ℤ}
    (hN : 0 < ps.length) (h : outer_inv ns ps a)
    (hlast : aget a (ps.length - 1) ≤ (ns.length : ℤ) - 1) :
    InnerInv ns ps a (ps.length - 1) := by
  refine ⟨h.1, by omega, ?_, Or.inl ⟨rfl, hlast⟩, ?_, ?_⟩
  · intro j hj
    exact h.2.1 j (by omega)
  · intro j hj1 hj2
    exact absurd hj1 (by omega)
  · intro j hj1 hj2
    exact absurd hj1 (by omega)

/-- The outer loop only ever returns the empty list or a recorded complete
feasible strictly increasing assignment. -/
theorem outer_loop_spec (ns : List NodeRec) (ps : List PodRec) (hN : 0 < ps.length) :
    ∀ (fuel : ℕ) (a best : List ℤ) (md : ℕ),
      outer_inv ns ps a → aget a (ps.length - 1) ≤ (ns.length : ℤ) - 1 →
      (best = [] ∨ good_assignment ns ps best) →
      (outer_loop ns ps fuel a best md = [] ∨
        good_assignment ns ps (outer_loop ns ps fuel a best md)) := by
  intro fuel
  induction fuel with
  | zero =>
    intro a best md _ _ hbest
    exact hbest
  | succ fuel ih =>
    intro a best md hinv hlast hbest
    simp only [outer_loop]
    obtain ⟨hok, hbroke, hoinv⟩ := inner_loop_spec ns ps
      (ps.length * (ns.length + ps.length) + 1) a (ps.length - 1)
      (outer_inv_inner_inv hN hinv hlast)
    generalize hr : inner_loop ns ps (ps.length * (ns.length + ps.length) + 1) a
      (ps.length - 1) = r at hok hbroke hoinv ⊢
    have hlen1 : r.1.length = ps.length := hoinv.1
    by_cases hend : aget r.1 (r.1.length - 1) = (ns.length : ℤ)
    · rw [if_pos hend]
      exact hbest
    · rw [if_neg hend]
      rw [hlen1] at hend
      have hlast' : aget r.1 (ps.length - 1) ≤ (ns.length : ℤ) - 1 := by
        have hb := hoinv.2.2 (ps.length - 1) (by omega)
        omega
      by_cases hexit : r.2 ≠ InnerExit.notOk
      · rw [if_pos hexit]
        have hgood : good_assignment ns ps r.1 := by
          cases hex2 : r.2 with
          | ok => exact hok hex2
          | broke => exact absurd (hbroke hex2) hend
          | notOk => exact absurd hex2 hexit
        split
        · exact ih r.1 r.1 _ hoinv hlast' (Or.inr hgood)
        · exact ih r.1 best md hoinv hlast' hbest
      · rw [if_neg hexit]
        exact ih r.1 best md hoinv hlast' hbest

/-- The initial assignment [-N, ..., -1] read at slot j. -/
theorem aget_init (N j : ℕ) (hj : j < N) :
    aget ((List.range N).map fun (i : ℕ) => (i : ℤ) - (N : ℤ)) j = (j : ℤ) - N := by
  unfold aget
  rw [List.getD_eq_getElem?_getD, List.getElem?_map, List.getElem?_range hj]
  rfl

/-- calculate_pods_assignment returns either the empty list or a complete
feasible strictly increasing assignment. -/
theorem calculate_good (ns : List NodeRec) (ps : List PodRec) (hps : ps ≠ []) :
    calculate_pods_assignment ns ps = [] ∨
    good_assignment ns ps (calculate_pods_assignment ns ps) := by
  have hN : 0 < ps.length := List.length_pos.mpr hps
  unfold calculate_pods_assignment
  apply outer_loop_spec ns ps hN
  · refine ⟨by simp, ?_, ?_⟩
    · intro j hj
      rw [aget_init _ j (by omega), aget_init _ (j + 1) (by omega)]
      push_cast
      omega
    · intro j hj
      rw [aget_init _ j (by omega)]
      omega
  · rw [aget_init _ (ps.length - 1) (by omega)]
    omega
  · exact Or.inl rfl

/-- Claim C2: for every assignment returned by calculate_pods_assignment on a
non-empty pod list, the returned list has one slot per pod, and each slot i
names an in-range node index on which pod i passes exactly the can_schedule
predicate. -/
theorem calculate_pods_assignment_feasible (ns : List NodeRec) (ps : List PodRec)
    (hps : ps ≠ []) :
    (calculate_pods_assignment ns ps ≠ [] →
      (calculate_pods_assignment ns ps).length = ps.length) ∧
    ∀ i, i < (calculate_pods_assignment ns ps).length →
      0 ≤ aget (calculate_pods_assignment ns ps) i ∧
      aget (calculate_pods_assignment ns ps) i < (ns.length : ℤ) ∧
      can_schedule (ns.getD (aget (calculate_pods_assignment ns ps) i).toNat default)
        (ps.getD i default) = true := by
  rcases calculate_good ns ps hps with h | h
  · rw [h]
    refine ⟨fun hc => absurd rfl hc, ?_⟩
    intro i hi
    simp at hi
  · refine ⟨fun _ => h.1, ?_⟩
    intro i hi
    have hf := h.2.1 i (by rw [← h.1]; exact hi)
    exact hf

/-- Witness for C2 at a one-node, one-pod instance: the result is [0] and the
pod fits the node. -/
theorem calculate_pods_assignment_feasible_witness :
    (calculate_pods_assignment c2nodes c2pods).length = c2pods.length ∧
    can_schedule
      (c2nodes.getD (aget (calculate_pods_assignment c2nodes c2pods) 0).toNat default)
      (c2pods.getD 0 default) = true := by
  have h := calculate_pods_assignment_feasible c2nodes c2pods (by simp [c2pods])
  exact ⟨h.1 (by decide), (h.2 0 (by decide)).2.2⟩

/-- Claim C3: every assignment returned by calculate_pods_assignment on a
non-empty pod list is a strictly increasing sequence of in-range node
indices; consequently the pods map to pairwise-distinct nodes, and when the
node list is sorted by topology key, the assigned topology keys are
non-decreasing. -/
theorem calculate_pods_assignment_monotone (ns : List NodeRec) (ps : List PodRec)
    (hps : ps ≠ [])
    (hsorted : List.Pairwise
      (fun n1 n2 => keyLe (node_topology_key n1) (node_topology_key n2) = true) ns) :
    List.Pairwise (· < ·) (calculate_pods_assignment ns ps) ∧
    (∀ x ∈ calculate_pods_assignment ns ps, 0 ≤ x ∧ x < (ns.length : ℤ)) ∧
    (calculate_pods_assignment ns ps).Nodup ∧
    List.Pairwise (fun k1 k2 => keyLe k1 k2 = true)
      ((calculate_pods_assignment ns ps).map fun x =>
        node_topology_key (ns.getD x.toNat default)) := by
  rcases calculate_good ns ps hps with h | h
  · rw [h]
    exact ⟨List.Pairwise.nil, by simp, List.nodup_nil, List.Pairwise.nil⟩
  · obtain ⟨hlen, hfeas, hmono⟩ := h
    have hadj : ∀ j, j + 1 < (calculate_pods_assignment ns ps).length →
        aget (calculate_pods_assignment ns ps) j <
          aget (calculate_pods_assignment ns ps) (j + 1) := by
      intro j hj
      exact hmono j (by omega)
    have hchain := aget_strict_chain (calculate_pods_assignment ns ps) _ hadj
    have hpw : List.Pairwise (· < ·) (calculate_pods_assignment ns ps) := by
      rw [List.pairwise_iff_get]
      intro i j hij
      have hc := hchain j.1 j.2 i.1 hij
      rwa [aget_eq_get _ i.1 i.2, aget_eq_get _ j.1 j.2] at hc
    have hbounds : ∀ x ∈ calculate_pods_assignment ns ps, 0 ≤ x ∧ x < (ns.length : ℤ) := by
      intro x hx
      obtain ⟨n, rfl⟩ := List.mem_iff_get.mp hx
      obtain ⟨h1, h2, h3⟩ := hfeas n.1 (by rw [← hlen]; exact n.2)
      rw [aget_eq_get _ n.1 n.2] at h1 h2
      exact ⟨h1, h2⟩
    refine ⟨hpw, hbounds, hpw.imp (fun hxy => ne_of_lt hxy), ?_⟩
    rw [List.pairwise_map]
    refine hpw.imp_of_mem ?_
    intro x y hx hy hxy
    obtain ⟨hx0, hxM⟩ := hbounds x hx
    obtain ⟨hy0, hyM⟩ := hbounds y hy
    have hxN : x.toNat < ns.length := by omega
    have hyN : y.toNat < ns.length := by omega
    have hlt : (⟨x.toNat, hxN⟩ : Fin ns.length) < ⟨y.toNat, hyN⟩ := by
      simp only [Fin.lt_def]
      omega
    have hkey := List.pairwise_iff_get.mp hsorted _ _ hlt
    rw [List.getD_eq_getElem ns default hxN, List.getD_eq_getElem ns default hyN]
    simp only [List.get_eq_getElem] at hkey
    exact hkey

/-- Witness for C3 at a two-node (equal topology keys), two-pod instance:
the result [0, 1] is strictly increasing and duplicate-free. -/
theorem calculate_pods_assignment_monotone_witness :
    List.Pairwise (· < ·) (calculate_pods_assignment c3nodes c3pods) ∧
    (calculate_pods_assignment c3nodes c3pods).Nodup := by
  have h := calculate_pods_assignment_monotone c3nodes c3pods (by simp [c3pods]) (by decide)
  exact ⟨h.1, h.2.2.1⟩

end ScheduleDaemon
